import Mathlib

/-!
Verification of the heading-slug generation pipeline of the blog repository
(`src/lib/remark-ascii-slugs.mjs`, used from `astro.config.mjs`).

The source plugin walks a parsed Markdown tree, and for every node of type
`heading` extracts the concatenated text of its direct `text` / `inlineCode`
children, strips diacritics (NFD normalisation followed by removal of the
combining-marks block), feeds the result to a per-invocation `Slugger`
instance, and writes the resulting slug to `node.data.hProperties.id` and
`node.data.id` (creating the containers when absent).

The tree, the plugin body, the text extraction and the node mutation are
embedded directly from the source.  The `github-slugger` package and the
JavaScript `String.prototype.normalize("NFD")` builtin are external
dependencies whose sources are not part of the repository; they are modelled
from the specification (definitions marked `Modelled from the spec:`).
-/

/-- Rendering-attribute bag of a node (`node.data.hProperties`): the `id`
key written by the plugin plus all remaining properties, which the plugin
never touches. -/
structure HProperties where
  id : Option String
  restProps : List (String × String)
deriving DecidableEq, Repr

/-- Metadata bag of a node (`node.data`): the `hProperties` sub-bag and the
`id` field written by the plugin, plus all remaining fields. -/
structure NodeData where
  hProperties : Option HProperties
  id : Option String
  restData : List (String × String)
deriving DecidableEq, Repr

/-- A unist node: a `type` tag, a literal `value` (meaningful for `text` and
`inlineCode` nodes), an ordered list of children and an optional data bag. -/
inductive Node where
  | mk (type : String) (value : String) (children : List Node) (data : Option NodeData)

def Node.type : Node → String
  | .mk t _ _ _ => t

def Node.value : Node → String
  | .mk _ v _ _ => v

def Node.children : Node → List Node
  | .mk _ _ cs _ => cs

def Node.data : Node → Option NodeData
  | .mk _ _ _ d => d

/-! ## Diacritics stripping

`stripDiacritics` in the source is
`str.normalize("NFD").replace(/[̀-ͯ]/g, "")`. -/

/-- Modelled from the spec: canonical decomposition (NFD) of a single
character, as performed by the JavaScript builtin
`String.prototype.normalize("NFD")`, whose implementation is not part of the
repository.  The table covers the precomposed Latin-1 letters (the ones the
spec's examples need); characters without a canonical decomposition map to
themselves. -/
def nfdChar : Char → List Char
  | 'À' => ['A', Char.ofNat 0x300]
  | 'Á' => ['A', Char.ofNat 0x301]
  | 'Â' => ['A', Char.ofNat 0x302]
  | 'Ã' => ['A', Char.ofNat 0x303]
  | 'Ä' => ['A', Char.ofNat 0x308]
  | 'Å' => ['A', Char.ofNat 0x30a]
  | 'Ç' => ['C', Char.ofNat 0x327]
  | 'È' => ['E', Char.ofNat 0x300]
  | 'É' => ['E', Char.ofNat 0x301]
  | 'Ê' => ['E', Char.ofNat 0x302]
  | 'Ë' => ['E', Char.ofNat 0x308]
  | 'Ì' => ['I', Char.ofNat 0x300]
  | 'Í' => ['I', Char.ofNat 0x301]
  | 'Î' => ['I', Char.ofNat 0x302]
  | 'Ï' => ['I', Char.ofNat 0x308]
  | 'Ñ' => ['N', Char.ofNat 0x303]
  | 'Ò' => ['O', Char.ofNat 0x300]
  | 'Ó' => ['O', Char.ofNat 0x301]
  | 'Ô' => ['O', Char.ofNat 0x302]
  | 'Õ' => ['O', Char.ofNat 0x303]
  | 'Ö' => ['O', Char.ofNat 0x308]
  | 'Ù' => ['U', Char.ofNat 0x300]
  | 'Ú' => ['U', Char.ofNat 0x301]
  | 'Û' => ['U', Char.ofNat 0x302]
  | 'Ü' => ['U', Char.ofNat 0x308]
  | 'Ý' => ['Y', Char.ofNat 0x301]
  | 'à' => ['a', Char.ofNat 0x300]
  | 'á' => ['a', Char.ofNat 0x301]
  | 'â' => ['a', Char.ofNat 0x302]
  | 'ã' => ['a', Char.ofNat 0x303]
  | 'ä' => ['a', Char.ofNat 0x308]
  | 'å' => ['a', Char.ofNat 0x30a]
  | 'ç' => ['c', Char.ofNat 0x327]
  | 'è' => ['e', Char.ofNat 0x300]
  | 'é' => ['e', Char.ofNat 0x301]
  | 'ê' => ['e', Char.ofNat 0x302]
  | 'ë' => ['e', Char.ofNat 0x308]
  | 'ì' => ['i', Char.ofNat 0x300]
  | 'í' => ['i', Char.ofNat 0x301]
  | 'î' => ['i', Char.ofNat 0x302]
  | 'ï' => ['i', Char.ofNat 0x308]
  | 'ñ' => ['n', Char.ofNat 0x303]
  | 'ò' => ['o', Char.ofNat 0x300]
  | 'ó' => ['o', Char.ofNat 0x301]
  | 'ô' => ['o', Char.ofNat 0x302]
  | 'õ' => ['o', Char.ofNat 0x303]
  | 'ö' => ['o', Char.ofNat 0x308]
  | 'ù' => ['u', Char.ofNat 0x300]
  | 'ú' => ['u', Char.ofNat 0x301]
  | 'û' => ['u', Char.ofNat 0x302]
  | 'ü' => ['u', Char.ofNat 0x308]
  | 'ý' => ['y', Char.ofNat 0x301]
  | 'ÿ' => ['y', Char.ofNat 0x308]
  | c => [c]

/-- NFD normalisation of a character list (concatenation of per-character
decompositions). -/
def nfdList : List Char → List Char
  | [] => []
  | c :: rest => nfdChar c ++ nfdList rest

/-- A character of the Unicode combining-marks block `[̀-ͯ]`. -/
def isCombining (c : Char) : Bool := 0x300 ≤ c.toNat && c.toNat ≤ 0x36f

/-- Source function `stripDiacritics`:
`str.normalize("NFD").replace(/[̀-ͯ]/g, "")`. -/
def stripDiacritics (s : String) : String :=
  ⟨(nfdList s.data).filter (fun c => !isCombining c)⟩

/-! ## The slugger (modelled)

The plugin imports `Slugger` from the `github-slugger` package, whose source
is not vendored in the repository.  Per the spec, the slugifier lower-cases
the text, replaces each run of whitespace/non-alphanumeric separators with a
single hyphen, trims leading/trailing hyphens, falls back to a non-empty
placeholder when the base is empty, and disambiguates repeats of a base slug
with `-N` suffixes driven by a per-instance registry, keeping every emitted
slug distinct. -/

/-- An ASCII character allowed to appear in a slug besides the hyphen:
a lower-case letter or a digit. -/
def isSlugChar (c : Char) : Bool :=
  (97 ≤ c.toNat && c.toNat ≤ 122) || (48 ≤ c.toNat && c.toNat ≤ 57)

/-- Replace every run of non-slug characters by a single hyphen, dropping a
trailing run entirely.  (A leading run leaves a single leading hyphen that
`baseSlug` trims afterwards.) -/
def glue : List Char → List Char
  | [] => []
  | d :: tail => if d == '-' then d :: tail else '-' :: d :: tail

def collapse : List Char → List Char
  | [] => []
  | c :: rest =>
    if isSlugChar c then c :: collapse rest else glue (collapse rest)

/-- Modelled from the spec: the base-slug derivation of the slugger
(`github-slugger`, not vendored): lower-case the text, replace each run of
whitespace/non-alphanumeric separators with a single hyphen, and trim
leading/trailing hyphens. -/
def baseSlug (s : String) : String :=
  ⟨(collapse (s.data.map Char.toLower)).dropWhile (fun c => c == '-')⟩

/-- Modelled from the spec: the final base handed to the uniqueness registry;
when the derived base is empty the slugger must fall back to a non-empty
placeholder (implementation-defined; `section` here). -/
def finalBase (text : String) : String :=
  let b := baseSlug (stripDiacritics text)
  if b = "" then "section" else b

/-- Decimal digit character (`d` is a value in `0..9`). -/
def digitChar (d : Nat) : Char := Char.ofNat (48 + d)

/-- Decimal digits of `n`, most significant first; the first argument is
fuel (any amount exceeding `n` yields the digits of `n`). -/
def natDigitsAux : Nat → Nat → List Char
  | 0, _ => []
  | fuel + 1, n =>
    if n < 10 then [digitChar n]
    else natDigitsAux fuel (n / 10) ++ [digitChar (n % 10)]

/-- Decimal digits of `n`, most significant first. -/
def natDigits (n : Nat) : List Char := natDigitsAux (n + 1) n

/-- Decimal rendering of `n` as a string. -/
def natSuffix (n : Nat) : String := ⟨natDigits n⟩

/-- The `N`-th disambiguation candidate for a base slug: `base-N`. -/
def cand (base : String) (n : Nat) : String := base ++ "-" ++ natSuffix n

/-- The slugger's registry: previously emitted slug strings, each mapped to
the disambiguation counter used for that string as a base. -/
abbrev Occ := List (String × Nat)

def occLookup : Occ → String → Option Nat
  | [], _ => none
  | (k, v) :: rest, key => if k = key then some v else occLookup rest key

def occMem (occ : Occ) (key : String) : Bool := (occLookup occ key).isSome

def occSet : Occ → String → Nat → Occ
  | [], key, v => [(key, v)]
  | (k, w) :: rest, key, v =>
    if k = key then (key, v) :: rest else (k, w) :: occSet rest key v

def occKeys (occ : Occ) : List String := occ.map Prod.fst

/-- Starting after counter value `c`, find the first free candidate
`cand base n` (one not registered in `occ`); returns the candidate together
with the counter value that produced it.  `none` on fuel exhaustion (which
never happens for fuel `occ.length + 1`, see `probe_isSome`). -/
def probe (occ : Occ) (base : String) : Nat → Nat → Option (String × Nat)
  | 0, _ => none
  | fuel + 1, c =>
    if occMem occ (cand base (c + 1)) then probe occ base fuel (c + 1)
    else some (cand base (c + 1), c + 1)

/-- Modelled from the spec: one `slugger.slug` call of the per-document
registry.  A base seen for the first time is emitted unchanged and
registered with counter `0`; a repeated base advances its counter past every
already-emitted slug, emits `base-N` for the resulting counter `N`, updates
the base's counter and registers the emitted slug. -/
def slugOnce (occ : Occ) (base : String) : String × Occ :=
  match occLookup occ base with
  | none => (base, occSet occ base 0)
  | some c =>
    match probe occ base (occ.length + 1) c with
    | some (s, n) => (s, occSet (occSet occ base n) s 0)
    | none => (base, occ)

/-! ## The plugin -/

/-- Text extraction of the plugin:
`node.children.filter(c => c.type === "text" || c.type === "inlineCode").map(c => c.value).join("")`. -/
def extractText (cs : List Node) : String :=
  String.join ((cs.filter
    (fun c => c.type == "text" || c.type == "inlineCode")).map Node.value)

/-- The node mutation of the plugin:
`if (!node.data) node.data = {}; if (!node.data.hProperties) node.data.hProperties = {};`
`node.data.hProperties.id = slug; node.data.id = slug;`. -/
def writeData (d : Option NodeData) (slug : String) : Option NodeData :=
  let dd := d.getD ⟨none, none, []⟩
  let hp := dd.hProperties.getD ⟨none, []⟩
  some ⟨some ⟨some slug, hp.restProps⟩, some slug, dd.restData⟩

mutual

/-- The traversal of `visit(tree, "heading", ...)`: pre-order, every node of
type `heading` at any depth gets the slug of its extracted text written into
its data bag; the registry threads through the whole document. -/
def visitNode : Occ → Node → Node × Occ
  | occ, .mk t v cs d =>
    if t = "heading" then
      let slug := (slugOnce occ (finalBase (extractText cs))).1
      let r := visitList (slugOnce occ (finalBase (extractText cs))).2 cs
      (.mk t v r.1 (writeData d slug), r.2)
    else
      let r := visitList occ cs
      (.mk t v r.1 d, r.2)

def visitList : Occ → List Node → List Node × Occ
  | occ, [] => ([], occ)
  | occ, n :: rest =>
    let r1 := visitNode occ n
    let r2 := visitList r1.2 rest
    (r1.1 :: r2.1, r2.2)

end

/-- The plugin `remarkAsciiSlugs`: one invocation constructs a fresh
`Slugger` (empty registry) and processes the whole tree. -/
def remarkAsciiSlugs (tree : Node) : Node := (visitNode [] tree).1

mutual

/-- The slugs carried by the heading nodes of a tree (`node.data.id` of every
`heading` node, in pre-order). -/
def headingSlugs : Node → List String
  | .mk t _ cs d =>
    (if t = "heading" then (d.bind NodeData.id).toList else []) ++ headingSlugsList cs

def headingSlugsList : List Node → List String
  | [] => []
  | n :: rest => headingSlugs n ++ headingSlugsList rest

end

/-! ## Concrete fixtures -/

/-- A plain text node. -/
def textNode (v : String) : Node := .mk "text" v [] none

/-- An inline-code node. -/
def codeNode (v : String) : Node := .mk "inlineCode" v [] none

/-- A heading whose only child is a text node. -/
def headingOf (v : String) : Node := .mk "heading" "" [textNode v] none

/-- A root document node. -/
def docOf (cs : List Node) : Node := .mk "root" "" cs none

/-- Decimal decoding, used to invert `natDigits`. -/
def decodeDigits (l : List Char) : Nat :=
  l.foldl (fun a c => 10 * a + (c.toNat - 48)) 0

/-- Slugs of well-formed shape: no two consecutive hyphens, and neither a
leading nor a trailing hyphen. -/
def noDoubleHyphen : List Char → Bool
  | a :: b :: rest => !(a == '-' && b == '-') && noDoubleHyphen (b :: rest)
  | _ => true

def isGoodSlug (s : String) : Bool :=
  noDoubleHyphen s.data && !(s.data.head? == some '-') && !(s.data.getLast? == some '-')

/-- ASCII-only strings. -/
def isAsciiString (s : String) : Bool := s.data.all (fun c => c.toNat < 128)

/-! ## Frame condition (claim C7) -/

/-- The `restData` fields of an optional data bag (empty when the bag is
absent). -/
def dataRestOf : Option NodeData → List (String × String)
  | some dd => dd.restData
  | none => []

/-- The `restProps` of the `hProperties` sub-bag of an optional data bag
(empty when either container is absent). -/
def hpRestOf : Option NodeData → List (String × String)
  | some dd =>
    match dd.hProperties with
    | some hp => hp.restProps
    | none => []
  | none => []

/-- The allowed change to a heading node's data bag: some slug `s` is
written to the node-level `id` field and to the `hProperties` `id` key,
creating either container if absent, and every other field is carried over
unchanged. -/
def DataOnlyId (d d' : Option NodeData) : Prop :=
  ∃ s : String, ∃ dd' : NodeData, ∃ hp' : HProperties,
    d' = some dd' ∧ dd'.hProperties = some hp' ∧ dd'.id = some s ∧ hp'.id = some s ∧
    dd'.restData = dataRestOf d ∧ hp'.restProps = hpRestOf d

mutual

/-- The frame relation between an input tree and an output tree: same node
types, values and child list shapes (no nodes added, removed or
reordered); a non-heading node keeps its data bag unchanged; a heading
node's data bag differs only as `DataOnlyId` permits. -/
def FrameOk : Node → Node → Prop
  | .mk t v cs d, .mk t' v' cs' d' =>
    t' = t ∧ v' = v ∧ FrameOkList cs cs' ∧
    (if t = "heading" then DataOnlyId d d' else d' = d)

def FrameOkList : List Node → List Node → Prop
  | [], [] => True
  | c :: cs, c' :: cs' => FrameOk c c' ∧ FrameOkList cs cs'
  | _, _ => False

end

/-! ## First heading of a document (claim C8) -/

mutual

/-- The registry base of the first heading of a tree in pre-order, when the
tree has a heading at all. -/
def firstHeadingBase : Node → Option String
  | .mk t _ cs _ =>
    if t = "heading" then some (finalBase (extractText cs)) else firstHeadingBaseList cs

def firstHeadingBaseList : List Node → Option String
  | [] => none
  | n :: rest =>
    match firstHeadingBase n with
    | some b => some b
    | none => firstHeadingBaseList rest

end


/-! ## Registry lemmas -/

theorem occKeys_nil : occKeys [] = [] := rfl

theorem occKeys_cons (k : String) (v : Nat) (rest : Occ) :
    occKeys ((k, v) :: rest) = k :: occKeys rest := rfl

theorem occLookup_eq_none {occ : Occ} {k : String} :
    occLookup occ k = none ↔ k ∉ occKeys occ := by
  induction occ with
  | nil => simp [occLookup, occKeys_nil]
  | cons p rest ih =>
    obtain ⟨k', v⟩ := p
    by_cases h : k' = k
    · subst h
      simp [occLookup, occKeys_cons]
    · rw [occLookup, if_neg h, ih, occKeys_cons]
      constructor
      · intro hn hm
        rcases List.mem_cons.1 hm with h' | h'
        · exact h h'.symm
        · exact hn h'
      · intro hn hm
        exact hn (List.mem_cons.2 (Or.inr hm))

theorem occMem_iff {occ : Occ} {k : String} :
    occMem occ k = true ↔ k ∈ occKeys occ := by
  rw [occMem, Option.isSome_iff_ne_none, Ne, occLookup_eq_none]
  exact not_not

theorem occMem_eq_false {occ : Occ} {k : String} :
    occMem occ k = false ↔ k ∉ occKeys occ := by
  rw [← occMem_iff]
  cases occMem occ k <;> simp

theorem mem_occKeys_occSet {occ : Occ} {k a : String} {v : Nat} :
    a ∈ occKeys (occSet occ k v) ↔ a = k ∨ a ∈ occKeys occ := by
  induction occ with
  | nil => simp [occSet, occKeys_cons, occKeys_nil]
  | cons p rest ih =>
    obtain ⟨k', v'⟩ := p
    by_cases h : k' = k
    · subst h
      rw [occSet, if_pos rfl, occKeys_cons, occKeys_cons]
      simp [List.mem_cons]
    · rw [occSet, if_neg h, occKeys_cons, occKeys_cons]
      simp only [List.mem_cons, ih]
      tauto

theorem occLookup_occSet_self {occ : Occ} {k : String} {v : Nat} :
    occLookup (occSet occ k v) k = some v := by
  induction occ with
  | nil => simp [occSet, occLookup]
  | cons p rest ih =>
    obtain ⟨k', v'⟩ := p
    by_cases h : k' = k <;> simp [occSet, occLookup, h, ih]

theorem occLookup_occSet_ne {occ : Occ} {k k' : String} {v : Nat} (h : k' ≠ k) :
    occLookup (occSet occ k v) k' = occLookup occ k' := by
  induction occ with
  | nil => simp [occSet, occLookup, Ne.symm h]
  | cons p rest ih =>
    obtain ⟨k'', v''⟩ := p
    by_cases h2 : k'' = k <;> by_cases h3 : k'' = k' <;>
      simp_all [occSet, occLookup, Ne.symm h]

/-! ## Decimal-digit lemmas -/

theorem digitChar_toNat {d : Nat} (h : d < 10) : (digitChar d).toNat = 48 + d := by
  interval_cases d <;> decide

theorem decodeDigits_append_singleton (l : List Char) (c : Char) :
    decodeDigits (l ++ [c]) = 10 * decodeDigits l + (c.toNat - 48) := by
  simp [decodeDigits, List.foldl_append]

theorem decodeDigits_natDigitsAux :
    ∀ fuel n, n < fuel → decodeDigits (natDigitsAux fuel n) = n := by
  intro fuel
  induction fuel with
  | zero => omega
  | succ fuel ih =>
    intro n hn
    by_cases h : n < 10
    · have := digitChar_toNat h
      simp [natDigitsAux, h, decodeDigits, this]
    · have hdiv : n / 10 < fuel :=
        lt_of_lt_of_le (Nat.div_lt_self (by omega) (by omega)) (by omega)
      have hmod := digitChar_toNat (Nat.mod_lt n (by omega))
      simp [natDigitsAux, h, decodeDigits_append_singleton, ih _ hdiv, hmod]
      omega

theorem decodeDigits_natDigits (n : Nat) : decodeDigits (natDigits n) = n :=
  decodeDigits_natDigitsAux (n + 1) n (by omega)

theorem natDigits_inj {a b : Nat} (h : natDigits a = natDigits b) : a = b := by
  have := congrArg decodeDigits h
  rwa [decodeDigits_natDigits, decodeDigits_natDigits] at this

theorem natDigitsAux_mem_range :
    ∀ fuel n, ∀ c ∈ natDigitsAux fuel n, 48 ≤ c.toNat ∧ c.toNat ≤ 57 := by
  intro fuel
  induction fuel with
  | zero => simp [natDigitsAux]
  | succ fuel ih =>
    intro n c hc
    by_cases h : n < 10
    · simp [natDigitsAux, h] at hc
      subst hc
      rw [digitChar_toNat h]
      omega
    · simp [natDigitsAux, h] at hc
      rcases hc with hc | hc
      · exact ih _ _ hc
      · subst hc
        rw [digitChar_toNat (Nat.mod_lt n (by omega))]
        have := Nat.mod_lt n (show 0 < 10 by omega)
        omega

theorem natDigits_mem_range {n : Nat} {c : Char} (hc : c ∈ natDigits n) :
    48 ≤ c.toNat ∧ c.toNat ≤ 57 :=
  natDigitsAux_mem_range (n + 1) n c hc

theorem natDigits_ne_nil (n : Nat) : natDigits n ≠ [] := by
  rw [natDigits, natDigitsAux]
  by_cases h : n < 10 <;> simp [h]

theorem cand_data (base : String) (n : Nat) :
    (cand base n).data = base.data ++ '-' :: natDigits n := by
  simp [cand, String.data_append, natSuffix, natDigits]

theorem cand_inj {base : String} {m n : Nat} (h : cand base m = cand base n) : m = n := by
  have hd := congrArg String.data h
  rw [cand_data, cand_data] at hd
  have := List.append_cancel_left hd
  exact natDigits_inj (by simpa using this)

theorem cand_ne_base (base : String) (n : Nat) : cand base n ≠ base := by
  intro h
  have hd := congrArg List.length (congrArg String.data h)
  rw [cand_data] at hd
  simp at hd

/-! ## Probe and slugOnce lemmas -/

theorem probe_eq_some :
    ∀ fuel c s n, probe occ base fuel c = some (s, n) →
      s = cand base n ∧ occMem occ s = false := by
  intro fuel
  induction fuel with
  | zero => simp [probe]
  | succ fuel ih =>
    intro c s n h
    rw [probe] at h
    by_cases hm : occMem occ (cand base (c + 1)) = true
    · rw [if_pos hm] at h
      exact ih _ _ _ h
    · rw [if_neg hm] at h
      cases h
      exact ⟨rfl, by simpa using hm⟩

theorem probe_none_mem :
    ∀ fuel c, probe occ base fuel c = none →
      ∀ i, 1 ≤ i → i ≤ fuel → occMem occ (cand base (c + i)) = true := by
  intro fuel
  induction fuel with
  | zero => omega
  | succ fuel ih =>
    intro c h i h1 h2
    rw [probe] at h
    by_cases hm : occMem occ (cand base (c + 1)) = true
    · rw [if_pos hm] at h
      by_cases hi : i = 1
      · subst hi; exact hm
      · have := ih (c + 1) h (i - 1) (by omega) (by omega)
        have heq : c + 1 + (i - 1) = c + i := by omega
        rwa [heq] at this
    · rw [if_neg hm] at h
      cases h

theorem probe_isSome (occ : Occ) (base : String) (c : Nat) :
    (probe occ base (occ.length + 1) c).isSome := by
  cases hp : probe occ base (occ.length + 1) c with
  | some p => simp
  | none =>
    exfalso
    have hmem := @probe_none_mem occ base _ _ hp
    have hsub : ∀ i ∈ Finset.Icc 1 (occ.length + 1),
        cand base (c + i) ∈ (occKeys occ).toFinset := by
      intro i hi
      rw [Finset.mem_Icc] at hi
      exact List.mem_toFinset.2 (occMem_iff.1 (hmem i hi.1 hi.2))
    have hinj : Set.InjOn (fun i => cand base (c + i))
        (Finset.Icc 1 (occ.length + 1)) := by
      intro i _ j _ hij
      have := cand_inj hij
      omega
    have hcard := Finset.card_le_card (Finset.image_subset_iff.2 hsub)
    rw [Finset.card_image_of_injOn hinj, Nat.card_Icc] at hcard
    have h1 := List.toFinset_card_le (occKeys occ)
    have h2 : (occKeys occ).length = occ.length := List.length_map occ Prod.fst
    omega

theorem slugOnce_fresh (occ : Occ) (base : String) :
    (slugOnce occ base).1 ∉ occKeys occ := by
  cases hl : occLookup occ base with
  | none =>
    simp only [slugOnce, hl]
    exact occLookup_eq_none.1 hl
  | some c =>
    cases hp : probe occ base (occ.length + 1) c with
    | none =>
      have hs := probe_isSome occ base c
      rw [hp] at hs
      simp at hs
    | some p =>
      obtain ⟨s, n⟩ := p
      simp only [slugOnce, hl, hp]
      exact occMem_eq_false.1 ((@probe_eq_some occ base _ _ _ _ hp).2)

theorem occKeys_slugOnce (occ : Occ) (base : String) {a : String}
    (h : a ∈ occKeys occ) : a ∈ occKeys (slugOnce occ base).2 := by
  cases hl : occLookup occ base with
  | none =>
    simp only [slugOnce, hl]
    exact mem_occKeys_occSet.2 (Or.inr h)
  | some c =>
    cases hp : probe occ base (occ.length + 1) c with
    | none =>
      simp only [slugOnce, hl, hp]
      exact h
    | some p =>
      obtain ⟨s, n⟩ := p
      simp only [slugOnce, hl, hp]
      exact mem_occKeys_occSet.2 (Or.inr (mem_occKeys_occSet.2 (Or.inr h)))

theorem slug_mem_occKeys_slugOnce (occ : Occ) (base : String) :
    (slugOnce occ base).1 ∈ occKeys (slugOnce occ base).2 := by
  cases hl : occLookup occ base with
  | none =>
    simp only [slugOnce, hl]
    exact mem_occKeys_occSet.2 (Or.inl rfl)
  | some c =>
    cases hp : probe occ base (occ.length + 1) c with
    | none =>
      have hs := probe_isSome occ base c
      rw [hp] at hs
      simp at hs
    | some p =>
      obtain ⟨s, n⟩ := p
      simp only [slugOnce, hl, hp]
      exact mem_occKeys_occSet.2 (Or.inl rfl)

theorem slugOnce_shape (occ : Occ) (base : String) :
    (slugOnce occ base).1 = base ∨ ∃ n, (slugOnce occ base).1 = cand base n := by
  cases hl : occLookup occ base with
  | none =>
    simp only [slugOnce, hl]
    exact Or.inl trivial
  | some c =>
    cases hp : probe occ base (occ.length + 1) c with
    | none =>
      simp only [slugOnce, hl, hp]
      exact Or.inl trivial
    | some p =>
      obtain ⟨s, n⟩ := p
      simp only [slugOnce, hl, hp]
      exact Or.inr ⟨n, (@probe_eq_some occ base _ _ _ _ hp).1⟩

/-! ## Traversal unfolding lemmas -/

theorem visitNode_heading (occ : Occ) (v : String) (cs : List Node) (d : Option NodeData) :
    visitNode occ (.mk "heading" v cs d) =
      (.mk "heading" v (visitList (slugOnce occ (finalBase (extractText cs))).2 cs).1
        (writeData d (slugOnce occ (finalBase (extractText cs))).1),
       (visitList (slugOnce occ (finalBase (extractText cs))).2 cs).2) := by
  simp [visitNode]

theorem visitNode_other (occ : Occ) {t : String} (v : String) (cs : List Node)
    (d : Option NodeData) (ht : t ≠ "heading") :
    visitNode occ (.mk t v cs d) =
      (.mk t v (visitList occ cs).1 d, (visitList occ cs).2) := by
  simp [visitNode, ht]

theorem visitList_nil (occ : Occ) : visitList occ [] = ([], occ) := rfl

theorem visitList_cons (occ : Occ) (n : Node) (rest : List Node) :
    visitList occ (n :: rest) =
      ((visitNode occ n).1 :: (visitList (visitNode occ n).2 rest).1,
       (visitList (visitNode occ n).2 rest).2) := rfl

theorem headingSlugs_heading (v : String) (cs : List Node) (d : Option NodeData) :
    headingSlugs (.mk "heading" v cs d) =
      (d.bind NodeData.id).toList ++ headingSlugsList cs := by
  simp [headingSlugs]

theorem headingSlugs_other {t : String} (v : String) (cs : List Node)
    (d : Option NodeData) (ht : t ≠ "heading") :
    headingSlugs (.mk t v cs d) = headingSlugsList cs := by
  simp [headingSlugs, ht]

theorem headingSlugsList_nil : headingSlugsList [] = [] := rfl

theorem headingSlugsList_cons (n : Node) (rest : List Node) :
    headingSlugsList (n :: rest) = headingSlugs n ++ headingSlugsList rest := rfl

theorem writeData_bind_id (d : Option NodeData) (s : String) :
    (writeData d s).bind NodeData.id = some s := rfl

/-! ## The uniqueness invariant -/

mutual

theorem visitNode_inv (occ : Occ) (n : Node) :
    (∀ a, a ∈ occKeys occ → a ∈ occKeys (visitNode occ n).2) ∧
    (∀ s, s ∈ headingSlugs (visitNode occ n).1 →
      s ∈ occKeys (visitNode occ n).2 ∧ s ∉ occKeys occ) ∧
    (headingSlugs (visitNode occ n).1).Nodup := by
  obtain ⟨t, v, cs, d⟩ := n
  by_cases ht : t = "heading"
  · subst ht
    obtain ⟨hmono, hmem, hnd⟩ :=
      visitList_inv (slugOnce occ (finalBase (extractText cs))).2 cs
    rw [visitNode_heading]
    refine ⟨?_, ?_, ?_⟩
    · intro a ha
      exact hmono a (occKeys_slugOnce occ _ ha)
    · intro s hs
      rw [headingSlugs_heading, writeData_bind_id] at hs
      rcases List.mem_append.1 hs with hs | hs
      · rcases List.mem_singleton.1 (by simpa using hs) with rfl
        exact ⟨hmono _ (slug_mem_occKeys_slugOnce occ _), slugOnce_fresh occ _⟩
      · obtain ⟨h1, h2⟩ := hmem s hs
        exact ⟨h1, fun hk => h2 (occKeys_slugOnce occ _ hk)⟩
    · rw [headingSlugs_heading, writeData_bind_id]
      rw [show ((some ((slugOnce occ (finalBase (extractText cs))).1)).toList : List String)
            = [(slugOnce occ (finalBase (extractText cs))).1] from rfl]
      rw [List.singleton_append, List.nodup_cons]
      refine ⟨fun hmem2 => ?_, hnd⟩
      exact (hmem _ hmem2).2 (slug_mem_occKeys_slugOnce occ _)
  · obtain ⟨hmono, hmem, hnd⟩ := visitList_inv occ cs
    rw [visitNode_other occ v cs d ht]
    refine ⟨hmono, ?_, ?_⟩
    · intro s hs
      rw [headingSlugs_other v _ d ht] at hs
      exact hmem s hs
    · rw [headingSlugs_other v _ d ht]
      exact hnd

theorem visitList_inv (occ : Occ) (l : List Node) :
    (∀ a, a ∈ occKeys occ → a ∈ occKeys (visitList occ l).2) ∧
    (∀ s, s ∈ headingSlugsList (visitList occ l).1 →
      s ∈ occKeys (visitList occ l).2 ∧ s ∉ occKeys occ) ∧
    (headingSlugsList (visitList occ l).1).Nodup := by
  cases l with
  | nil => simp [visitList_nil, headingSlugsList_nil]
  | cons n rest =>
    obtain ⟨hm1, hs1, hn1⟩ := visitNode_inv occ n
    obtain ⟨hm2, hs2, hn2⟩ := visitList_inv (visitNode occ n).2 rest
    rw [visitList_cons]
    refine ⟨?_, ?_, ?_⟩
    · intro a ha
      exact hm2 a (hm1 a ha)
    · intro s hs
      rw [headingSlugsList_cons] at hs
      rcases List.mem_append.1 hs with hs | hs
      · obtain ⟨h1, h2⟩ := hs1 s hs
        exact ⟨hm2 s h1, h2⟩
      · obtain ⟨h1, h2⟩ := hs2 s hs
        exact ⟨h1, fun hk => h2 (hm1 s hk)⟩
    · rw [headingSlugsList_cons, List.nodup_append]
      refine ⟨hn1, hn2, ?_⟩
      intro s hsa hsb
      exact (hs2 s hsb).2 ((hs1 s hsa).1)

end

/-! ## Shape of emitted slugs -/

theorem isSlugChar_iff {c : Char} :
    isSlugChar c = true ↔ (97 ≤ c.toNat ∧ c.toNat ≤ 122) ∨ (48 ≤ c.toNat ∧ c.toNat ≤ 57) := by
  simp [isSlugChar]

theorem isSlugChar_ne_hyphen {c : Char} (h : isSlugChar c = true) : c ≠ '-' := by
  intro heq
  subst heq
  exact absurd h (by decide)

theorem noDH_cons {c : Char} {l : List Char}
    (hc : c ≠ '-' ∨ l.head? ≠ some '-') (hl : noDoubleHyphen l = true) :
    noDoubleHyphen (c :: l) = true := by
  cases l with
  | nil => rfl
  | cons b rest =>
    rw [noDoubleHyphen, Bool.and_eq_true]
    refine ⟨?_, hl⟩
    rcases hc with hc | hc
    · simp [hc]
    · have hb : b ≠ '-' := by simpa using hc
      simp [hb]

theorem noDH_tail {c : Char} {l : List Char} (h : noDoubleHyphen (c :: l) = true) :
    noDoubleHyphen l = true := by
  cases l with
  | nil => rfl
  | cons b rest =>
    rw [noDoubleHyphen, Bool.and_eq_true] at h
    exact h.2

theorem noDH_of_forall_ne {l : List Char} (h : ∀ c ∈ l, c ≠ '-') :
    noDoubleHyphen l = true := by
  induction l with
  | nil => rfl
  | cons a rest ih =>
    exact noDH_cons (Or.inl (h a (List.mem_cons_self a rest)))
      (ih fun c hc => h c (List.mem_cons_of_mem a hc))

theorem noDH_append_hyphen :
    ∀ xs : List Char, noDoubleHyphen xs = true → xs.getLast? ≠ some '-' →
      ∀ ys : List Char, (∀ c ∈ ys, c ≠ '-') →
      noDoubleHyphen (xs ++ '-' :: ys) = true := by
  intro xs
  induction xs with
  | nil =>
    intro _ _ ys hys
    refine noDH_cons (Or.inr ?_) (noDH_of_forall_ne hys)
    cases ys with
    | nil => simp
    | cons y ys' =>
      simpa using hys y (List.mem_cons_self y ys')
  | cons x xs' ih =>
    intro hnd hlast ys hys
    cases xs' with
    | nil =>
      refine noDH_cons (Or.inl ?_) (ih rfl (by simp) ys hys)
      intro heq
      exact hlast (by simp [heq])
    | cons y xs'' =>
      rw [noDoubleHyphen, Bool.and_eq_true] at hnd
      have hrec := ih hnd.2 (by rwa [List.getLast?_cons_cons] at hlast) ys hys
      rw [List.cons_append]
      refine noDH_cons ?_ hrec
      rcases (by simpa using hnd.1 : ¬x = '-' ∨ ¬y = '-') with h | h
      · exact Or.inl h
      · refine Or.inr ?_
        rw [List.cons_append]
        simpa using h

theorem collapse_mem : ∀ l : List Char, ∀ c ∈ collapse l, isSlugChar c = true ∨ c = '-' := by
  intro l
  induction l with
  | nil => simp [collapse]
  | cons a rest ih =>
    intro c hc
    by_cases ha : isSlugChar a = true
    · simp only [collapse, if_pos ha] at hc
      rcases List.mem_cons.1 hc with rfl | hc
      · exact Or.inl ha
      · exact ih c hc
    · simp only [collapse, if_neg ha] at hc
      cases hd : collapse rest with
      | nil =>
        rw [hd] at hc
        simp [glue] at hc
      | cons d tail =>
        rw [hd, glue] at hc
        by_cases hdh : (d == '-') = true
        · rw [if_pos hdh] at hc
          exact ih c (hd ▸ hc)
        · rw [if_neg hdh] at hc
          rcases List.mem_cons.1 hc with rfl | hc
          · exact Or.inr rfl
          · exact ih c (hd ▸ hc)

theorem collapse_getLast : ∀ l : List Char, (collapse l).getLast? ≠ some '-' := by
  intro l
  induction l with
  | nil => simp [collapse]
  | cons a rest ih =>
    by_cases ha : isSlugChar a = true
    · simp only [collapse, if_pos ha]
      cases hd : collapse rest with
      | nil =>
        simpa using isSlugChar_ne_hyphen ha
      | cons d tail =>
        rw [List.getLast?_cons_cons]
        rw [hd] at ih
        exact ih
    · simp only [collapse, if_neg ha]
      cases hd : collapse rest with
      | nil =>
        simp [glue]
      | cons d tail =>
        rw [glue]
        rw [hd] at ih
        by_cases hdh : (d == '-') = true
        · rw [if_pos hdh]
          exact ih
        · rw [if_neg hdh, List.getLast?_cons_cons]
          exact ih

theorem collapse_noDH : ∀ l : List Char, noDoubleHyphen (collapse l) = true := by
  intro l
  induction l with
  | nil => rfl
  | cons a rest ih =>
    by_cases ha : isSlugChar a = true
    · simp only [collapse, if_pos ha]
      exact noDH_cons (Or.inl (isSlugChar_ne_hyphen ha)) ih
    · simp only [collapse, if_neg ha]
      cases hd : collapse rest with
      | nil => rfl
      | cons d tail =>
        rw [glue]
        rw [hd] at ih
        by_cases hdh : (d == '-') = true
        · rw [if_pos hdh]
          exact ih
        · rw [if_neg hdh]
          refine noDH_cons (Or.inr ?_) ih
          simpa using (by simpa using hdh : d ≠ '-')

theorem dropWhile_head_not {α : Type} {p : α → Bool} {c : α} :
    ∀ l : List α, (l.dropWhile p).head? = some c → p c = false := by
  intro l
  induction l with
  | nil => simp [List.dropWhile]
  | cons a rest ih =>
    intro h
    rw [List.dropWhile_cons] at h
    by_cases ha : p a = true
    · rw [if_pos ha] at h
      exact ih h
    · rw [if_neg ha] at h
      cases Option.some.inj h
      simpa using ha

theorem noDH_dropWhile {p : Char → Bool} :
    ∀ l : List Char, noDoubleHyphen l = true → noDoubleHyphen (l.dropWhile p) = true := by
  intro l
  induction l with
  | nil => intro h; exact h
  | cons a rest ih =>
    intro h
    rw [List.dropWhile_cons]
    by_cases ha : p a = true
    · rw [if_pos ha]
      exact ih (noDH_tail h)
    · rw [if_neg ha]
      exact h

theorem getLast_dropWhile {p : Char → Bool} :
    ∀ l : List Char, l.getLast? ≠ some '-' → (l.dropWhile p).getLast? ≠ some '-' := by
  intro l
  induction l with
  | nil => intro h; exact h
  | cons a rest ih =>
    intro h
    rw [List.dropWhile_cons]
    by_cases ha : p a = true
    · rw [if_pos ha]
      cases rest with
      | nil => simp
      | cons b rest' =>
        exact ih (by rwa [List.getLast?_cons_cons] at h)
    · rw [if_neg ha]
      exact h

theorem baseSlug_mem {s : String} {c : Char} (hc : c ∈ (baseSlug s).data) :
    isSlugChar c = true ∨ c = '-' :=
  collapse_mem _ c ((List.dropWhile_suffix _).subset hc)

theorem baseSlug_good (s : String) : isGoodSlug (baseSlug s) = true := by
  rw [isGoodSlug, Bool.and_eq_true, Bool.and_eq_true]
  refine ⟨⟨?_, ?_⟩, ?_⟩
  · exact noDH_dropWhile _ (collapse_noDH _)
  · rw [Bool.not_eq_true', beq_eq_false_iff_ne]
    intro h
    have := dropWhile_head_not _ h
    simp at this
  · rw [Bool.not_eq_true', beq_eq_false_iff_ne]
    exact getLast_dropWhile _ (collapse_getLast _)

theorem finalBase_ne_empty (t : String) : finalBase t ≠ "" := by
  rw [finalBase]
  by_cases h : baseSlug (stripDiacritics t) = "" <;> simp [h]

theorem finalBase_good (t : String) : isGoodSlug (finalBase t) = true := by
  rw [finalBase]
  by_cases h : baseSlug (stripDiacritics t) = ""
  · simp only [h, if_pos rfl]
    decide
  · rw [if_neg h]
    exact baseSlug_good _

theorem finalBase_mem {t : String} {c : Char} (hc : c ∈ (finalBase t).data) :
    isSlugChar c = true ∨ c = '-' := by
  rw [finalBase] at hc
  by_cases h : baseSlug (stripDiacritics t) = ""
  · rw [if_pos h] at hc
    simp [String.data] at hc
    rcases hc with rfl | rfl | rfl | rfl | rfl | rfl | rfl <;> exact Or.inl (by decide)
  · rw [if_neg h] at hc
    exact baseSlug_mem hc

theorem isSlugChar_of_digit {c : Char} (h : 48 ≤ c.toNat ∧ c.toNat ≤ 57) :
    isSlugChar c = true := by
  rw [isSlugChar_iff]
  omega

theorem data_ne_nil_of_ne_empty {b : String} (h : b ≠ "") : b.data ≠ [] := by
  intro hd
  exact h (String.ext hd)

theorem cand_mem {b : String} {n : Nat} {c : Char}
    (hb : ∀ x ∈ b.data, isSlugChar x = true ∨ x = '-')
    (hc : c ∈ (cand b n).data) : isSlugChar c = true ∨ c = '-' := by
  rw [cand_data] at hc
  rcases List.mem_append.1 hc with hc | hc
  · exact hb c hc
  · rcases List.mem_cons.1 hc with rfl | hc
    · exact Or.inr rfl
    · exact Or.inl (isSlugChar_of_digit (natDigits_mem_range hc))

theorem cand_good {b : String} (n : Nat) (hb : isGoodSlug b = true) (hne : b ≠ "") :
    isGoodSlug (cand b n) = true := by
  rw [isGoodSlug, Bool.and_eq_true, Bool.and_eq_true] at hb
  obtain ⟨⟨hnd, hhead⟩, hlast⟩ := hb
  rw [Bool.not_eq_true', beq_eq_false_iff_ne] at hhead hlast
  have hdig : ∀ c ∈ natDigits n, c ≠ '-' := by
    intro c hc heq
    have := natDigits_mem_range hc
    subst heq
    simp at this
  rw [isGoodSlug, Bool.and_eq_true, Bool.and_eq_true]
  refine ⟨⟨?_, ?_⟩, ?_⟩
  · rw [cand_data]
    exact noDH_append_hyphen _ hnd hlast _ hdig
  · rw [Bool.not_eq_true', beq_eq_false_iff_ne, cand_data,
      List.head?_append_of_ne_nil _ (data_ne_nil_of_ne_empty hne)]
    exact hhead
  · rw [Bool.not_eq_true', beq_eq_false_iff_ne, cand_data]
    have hgl : (b.data ++ '-' :: natDigits n).getLast? = ('-' :: natDigits n).getLast? :=
      List.getLast?_append_of_ne_nil _ (by simp)
    rw [hgl]
    cases hdl : (natDigits n) with
    | nil => exact absurd hdl (natDigits_ne_nil n)
    | cons d tail =>
      rw [List.getLast?_cons_cons]
      intro hsome
      exact hdig _ (hdl ▸ List.mem_of_mem_getLast? hsome) rfl


/-! ## Parametric property of every emitted slug -/

mutual

theorem visitNode_slugProp (P : String → Prop)
    (hP : ∀ (occ : Occ) (text : String), P ((slugOnce occ (finalBase text)).1))
    (occ : Occ) (n : Node) :
    ∀ s ∈ headingSlugs (visitNode occ n).1, P s := by
  obtain ⟨t, v, cs, d⟩ := n
  by_cases ht : t = "heading"
  · subst ht
    intro s hs
    rw [visitNode_heading, headingSlugs_heading, writeData_bind_id] at hs
    rcases List.mem_append.1 hs with hs | hs
    · have heq : s = (slugOnce occ (finalBase (extractText cs))).1 := by simpa using hs
      rw [heq]
      exact hP occ _
    · exact visitList_slugProp P hP _ cs s hs
  · intro s hs
    rw [visitNode_other occ v cs d ht, headingSlugs_other v _ d ht] at hs
    exact visitList_slugProp P hP occ cs s hs

theorem visitList_slugProp (P : String → Prop)
    (hP : ∀ (occ : Occ) (text : String), P ((slugOnce occ (finalBase text)).1))
    (occ : Occ) (l : List Node) :
    ∀ s ∈ headingSlugsList (visitList occ l).1, P s := by
  cases l with
  | nil =>
    intro s hs
    rw [visitList_nil, headingSlugsList_nil] at hs
    cases hs
  | cons n rest =>
    intro s hs
    rw [visitList_cons, headingSlugsList_cons] at hs
    rcases List.mem_append.1 hs with hs | hs
    · exact visitNode_slugProp P hP occ n s hs
    · exact visitList_slugProp P hP _ rest s hs

end

theorem slugOnce_finalBase_prop (P : String → Prop)
    (hbase : ∀ t, P (finalBase t))
    (hcand : ∀ t n, P (cand (finalBase t) n)) :
    ∀ (occ : Occ) (text : String), P ((slugOnce occ (finalBase text)).1) := by
  intro occ text
  rcases slugOnce_shape occ (finalBase text) with h | ⟨n, h⟩
  · rw [h]
    exact hbase text
  · rw [h]
    exact hcand text n

theorem cand_ne_empty (b : String) (n : Nat) : cand b n ≠ "" := by
  intro h
  have := congrArg String.data h
  rw [cand_data] at this
  simp at this

theorem emitted_ne_empty :
    ∀ (occ : Occ) (text : String), (slugOnce occ (finalBase text)).1 ≠ "" :=
  slugOnce_finalBase_prop (fun s => s ≠ "") finalBase_ne_empty (fun _ _ => cand_ne_empty _ _)

theorem emitted_good :
    ∀ (occ : Occ) (text : String), isGoodSlug ((slugOnce occ (finalBase text)).1) = true :=
  slugOnce_finalBase_prop (fun s => isGoodSlug s = true) finalBase_good
    (fun t n => cand_good n (finalBase_good t) (finalBase_ne_empty t))

theorem ascii_of_mem_pred {s : String}
    (h : ∀ c ∈ s.data, isSlugChar c = true ∨ c = '-') : isAsciiString s = true := by
  rw [isAsciiString, List.all_eq_true]
  intro c hc
  simp only [decide_eq_true_eq]
  rcases h c hc with h' | h'
  · rw [isSlugChar_iff] at h'
    omega
  · subst h'
    decide

theorem emitted_ascii :
    ∀ (occ : Occ) (text : String), isAsciiString ((slugOnce occ (finalBase text)).1) = true :=
  slugOnce_finalBase_prop (fun s => isAsciiString s = true)
    (fun _ => ascii_of_mem_pred (fun _ hc => finalBase_mem hc))
    (fun _ _ => ascii_of_mem_pred
      (fun _ hc => cand_mem (fun _ hx => finalBase_mem hx) hc))

/-! ## Text extraction lemmas -/

theorem string_foldl_append (l : List String) :
    ∀ a : String, l.foldl (fun r s => r ++ s) a = a ++ l.foldl (fun r s => r ++ s) "" := by
  induction l with
  | nil =>
    intro a
    rw [List.foldl_nil, List.foldl_nil, String.append_empty]
  | cons x rest ih =>
    intro a
    rw [List.foldl_cons, List.foldl_cons, ih (a ++ x), ih ("" ++ x),
      String.empty_append, String.append_assoc]

theorem join_cons (x : String) (l : List String) :
    String.join (x :: l) = x ++ String.join l := by
  rw [String.join, String.join, List.foldl_cons, string_foldl_append, String.empty_append]

theorem extractText_nil : extractText [] = "" := rfl

theorem extractText_cons (a : Node) (l : List Node) :
    extractText (a :: l) =
      if (a.type == "text" || a.type == "inlineCode") = true
      then a.value ++ extractText l else extractText l := by
  by_cases h : (a.type == "text" || a.type == "inlineCode") = true
  · rw [if_pos h]
    rw [extractText, List.filter_cons, if_pos h, List.map_cons, join_cons]
    rfl
  · rw [if_neg h]
    rw [extractText, List.filter_cons, if_neg h]
    rfl

theorem extractText_cons_text (v : String) (cs : List Node) (d : Option NodeData)
    (rest : List Node) :
    extractText (.mk "text" v cs d :: rest) = v ++ extractText rest := by
  rw [extractText_cons, if_pos (by rw [Node.type]; decide)]
  rfl

theorem extractText_cons_code (v : String) (cs : List Node) (d : Option NodeData)
    (rest : List Node) :
    extractText (.mk "inlineCode" v cs d :: rest) = v ++ extractText rest := by
  rw [extractText_cons, if_pos (by rw [Node.type]; decide)]
  rfl

theorem extractText_cons_other {n : Node} (h1 : n.type ≠ "text")
    (h2 : n.type ≠ "inlineCode") (rest : List Node) :
    extractText (n :: rest) = extractText rest := by
  rw [extractText_cons, if_neg]
  simp [h1, h2]

theorem extractText_ignores (pre post : List Node) (n : Node)
    (h1 : n.type ≠ "text") (h2 : n.type ≠ "inlineCode") :
    extractText (pre ++ n :: post) = extractText (pre ++ post) := by
  induction pre with
  | nil =>
    rw [List.nil_append, List.nil_append]
    exact extractText_cons_other h1 h2 post
  | cons p pre' ih =>
    rw [List.cons_append, List.cons_append, extractText_cons, extractText_cons, ih]

/-! ## Frame condition proof -/

theorem writeData_dataOnlyId (d : Option NodeData) (s : String) :
    DataOnlyId d (writeData d s) := by
  cases d with
  | none => exact ⟨s, _, _, rfl, rfl, rfl, rfl, rfl, rfl⟩
  | some dd =>
    obtain ⟨hp, i, r⟩ := dd
    cases hp with
    | none => exact ⟨s, _, _, rfl, rfl, rfl, rfl, rfl, rfl⟩
    | some hpv => exact ⟨s, _, _, rfl, rfl, rfl, rfl, rfl, rfl⟩

mutual

theorem visitNode_frame (occ : Occ) (n : Node) : FrameOk n (visitNode occ n).1 := by
  obtain ⟨t, v, cs, d⟩ := n
  by_cases ht : t = "heading"
  · subst ht
    rw [visitNode_heading]
    rw [FrameOk]
    refine ⟨rfl, rfl, visitList_frame _ cs, ?_⟩
    rw [if_pos rfl]
    exact writeData_dataOnlyId d _
  · rw [visitNode_other occ v cs d ht]
    rw [FrameOk]
    exact ⟨rfl, rfl, visitList_frame occ cs, by rw [if_neg ht]⟩

theorem visitList_frame (occ : Occ) (l : List Node) : FrameOkList l (visitList occ l).1 := by
  cases l with
  | nil =>
    rw [visitList_nil]
    trivial
  | cons n rest =>
    rw [visitList_cons]
    rw [FrameOkList]
    exact ⟨visitNode_frame occ n, visitList_frame _ rest⟩

end

/-! ## First-heading lemmas -/

mutual

theorem visitNode_first (occ : Occ) (n : Node) :
    (firstHeadingBase n = none →
      headingSlugs (visitNode occ n).1 = [] ∧ (visitNode occ n).2 = occ) ∧
    (∀ b, firstHeadingBase n = some b →
      (headingSlugs (visitNode occ n).1).head? = some ((slugOnce occ b).1)) := by
  obtain ⟨t, v, cs, d⟩ := n
  by_cases ht : t = "heading"
  · subst ht
    constructor
    · intro h
      rw [firstHeadingBase, if_pos rfl] at h
      cases h
    · intro b hb
      rw [firstHeadingBase, if_pos rfl] at hb
      cases Option.some.inj hb
      rw [visitNode_heading, headingSlugs_heading, writeData_bind_id]
      rfl
  · have hfb : firstHeadingBase (.mk t v cs d) = firstHeadingBaseList cs := by
      rw [firstHeadingBase, if_neg ht]
    rw [visitNode_other occ v cs d ht, headingSlugs_other v _ d ht, hfb]
    exact visitList_first occ cs

theorem visitList_first (occ : Occ) (l : List Node) :
    (firstHeadingBaseList l = none →
      headingSlugsList (visitList occ l).1 = [] ∧ (visitList occ l).2 = occ) ∧
    (∀ b, firstHeadingBaseList l = some b →
      (headingSlugsList (visitList occ l).1).head? = some ((slugOnce occ b).1)) := by
  cases l with
  | nil =>
    refine ⟨fun h => ⟨rfl, rfl⟩, fun b hb => ?_⟩
    cases hb
  | cons n rest =>
    have hn := visitNode_first occ n
    cases hfb : firstHeadingBase n with
    | some b0 =>
      have hhead := hn.2 b0 hfb
      constructor
      · intro h
        rw [firstHeadingBaseList, hfb] at h
        cases h
      · intro b hb
        rw [firstHeadingBaseList, hfb] at hb
        cases Option.some.inj hb
        rw [visitList_cons, headingSlugsList_cons]
        have hne : headingSlugs (visitNode occ n).1 ≠ [] := by
          intro hnil
          rw [hnil] at hhead
          cases hhead
        rw [List.head?_append_of_ne_nil _ hne]
        exact hhead
    | none =>
      obtain ⟨hsl, hocc⟩ := hn.1 hfb
      have hrest := visitList_first occ rest
      constructor
      · intro h
        rw [firstHeadingBaseList, hfb] at h
        obtain ⟨h1, h2⟩ := hrest.1 h
        rw [visitList_cons, headingSlugsList_cons, hsl, hocc]
        exact ⟨by rw [h1, List.append_nil], h2⟩
      · intro b hb
        rw [firstHeadingBaseList, hfb] at hb
        have := hrest.2 b hb
        rw [visitList_cons, headingSlugsList_cons, hsl, hocc]
        rw [List.nil_append]
        exact this

end

/-! ## Small-step computation lemmas for concrete documents -/

theorem visitNode_textNode (occ : Occ) (v : String) :
    visitNode occ (textNode v) = (textNode v, occ) := by
  rw [textNode, visitNode_other occ v [] none (by decide), visitList_nil]

theorem visitList_single_text (occ : Occ) (v : String) :
    visitList occ [textNode v] = ([textNode v], occ) := by
  rw [visitList_cons, visitNode_textNode, visitList_nil]

theorem extractText_single_text (v : String) : extractText [textNode v] = v := by
  rw [textNode, extractText_cons_text, extractText_nil, String.append_empty]

theorem visitNode_headingOf (occ : Occ) (v : String) :
    visitNode occ (headingOf v) =
      (.mk "heading" "" [textNode v] (writeData none (slugOnce occ (finalBase v)).1),
       (slugOnce occ (finalBase v)).2) := by
  rw [headingOf, visitNode_heading, extractText_single_text, visitList_single_text]

theorem visitNode_headingOf_fst (occ : Occ) (v : String) :
    (visitNode occ (headingOf v)).1 =
      .mk "heading" "" [textNode v] (writeData none (slugOnce occ (finalBase v)).1) := by
  rw [visitNode_headingOf]

theorem visitNode_headingOf_snd (occ : Occ) (v : String) :
    (visitNode occ (headingOf v)).2 = (slugOnce occ (finalBase v)).2 := by
  rw [visitNode_headingOf]

theorem headingSlugs_textNode (v : String) : headingSlugs (textNode v) = [] := by
  rw [textNode, headingSlugs_other v [] none (by decide)]
  rfl

theorem heading_out_slugs (v s : String) :
    headingSlugs (.mk "heading" "" [textNode v] (writeData none s)) = [s] := by
  rw [headingSlugs_heading, writeData_bind_id, headingSlugsList_cons,
    headingSlugs_textNode, headingSlugsList_nil]
  rfl

theorem remark_root_slugs (cs : List Node) :
    headingSlugs (remarkAsciiSlugs (docOf cs)) = headingSlugsList (visitList [] cs).1 := by
  rw [remarkAsciiSlugs, docOf, visitNode_other [] "" cs none (by decide)]
  exact headingSlugs_other "" _ none (by decide)

/-! ## The claims -/

/-- C1: for every document tree, after a single invocation of
`remarkAsciiSlugs` the slugs assigned to the heading nodes of the tree are
pairwise distinct — no two headings of the same document end up with the
same slug string. -/
theorem slug_uniqueness (t : Node) : (headingSlugs (remarkAsciiSlugs t)).Nodup :=
  (visitNode_inv [] t).2.2

/-- C2: every heading node is assigned a non-empty slug; in particular a
heading whose extracted text is empty (for example one whose only child is
an image) receives the non-empty fallback slug, never the empty string. -/
theorem empty_heading_nonempty_slug (t : Node) :
    ∀ s ∈ headingSlugs (remarkAsciiSlugs t), s ≠ "" := by
  intro s hs
  exact visitNode_slugProp (fun s => s ≠ "") emitted_ne_empty [] t s hs

/-- Witness for C2: a heading whose only child is an image node has empty
extracted text, yet its assigned slug is the non-empty fallback. -/
theorem empty_heading_nonempty_slug_witness :
    extractText [Node.mk "image" "" [] none] = "" ∧
    "section" ∈ headingSlugs (remarkAsciiSlugs
      (docOf [Node.mk "heading" "" [Node.mk "image" "" [] none] none])) ∧
    "section" ≠ "" :=
  ⟨by decide, by decide, empty_heading_nonempty_slug
      (docOf [Node.mk "heading" "" [Node.mk "image" "" [] none] none]) "section" (by decide)⟩

/-- C3 (counterexample): the claimed numbering `base-N` with `N` starting at
1 for the first repeat fails.  With heading texts `x`, `x 1`, `x`, the third
heading is the first repeat of the base `x`, but it is assigned `x-2`, not
`x-1`, because `x-1` was already emitted for the second heading. -/
theorem numbering_counterexample :
    finalBase "x" = "x" ∧ finalBase "x 1" = "x-1" ∧
    headingSlugs (remarkAsciiSlugs (docOf [headingOf "x", headingOf "x 1", headingOf "x"]))
      = ["x", "x-1", "x-2"] ∧
    ¬ headingSlugs (remarkAsciiSlugs (docOf [headingOf "x", headingOf "x 1", headingOf "x"]))
      = ["x", "x-1", "x-1"] :=
  ⟨by decide, by decide, by decide, by decide⟩

/-- C3 (amended): the first heading yielding a base slug is assigned the
base unchanged with counter 0; a subsequent heading with the same base
advances the counter and is assigned `base-N` for the new counter value
`N = c + 1` whenever that candidate has not already been emitted (emitted
candidates are skipped, which is how `N` can exceed the repeat count). -/
theorem numbering_amended (occ : Occ) (b : String) (c : Nat) :
    (occLookup occ b = none →
      (slugOnce occ b).1 = b ∧ occLookup (slugOnce occ b).2 b = some 0) ∧
    (occLookup occ b = some c → occMem occ (cand b (c + 1)) = false →
      (slugOnce occ b).1 = cand b (c + 1) ∧
      occLookup (slugOnce occ b).2 b = some (c + 1)) := by
  constructor
  · intro h
    simp only [slugOnce, h]
    exact ⟨trivial, occLookup_occSet_self⟩
  · intro h hm
    have hfuel : probe occ b (occ.length + 1) c = some (cand b (c + 1), c + 1) := by
      rw [probe]
      simp [hm]
    simp only [slugOnce, h, hfuel]
    refine ⟨trivial, ?_⟩
    rw [occLookup_occSet_ne (fun heq => cand_ne_base b (c + 1) heq.symm)]
    exact occLookup_occSet_self

/-- Witness for C3 (amended): with `visao-geral` already registered at
counter 0, a repeat is assigned `visao-geral-1` and the counter advances
to 1. -/
theorem numbering_amended_witness :
    (slugOnce [("visao-geral", 0)] "visao-geral").1 = "visao-geral-1" ∧
    occLookup (slugOnce [("visao-geral", 0)] "visao-geral").2 "visao-geral" = some 1 := by
  have h := (numbering_amended [("visao-geral", 0)] "visao-geral" 0).2 (by decide) (by decide)
  exact ⟨by rw [h.1]; decide, h.2⟩

/-- C4: heading text is NFD-decomposed and stripped of combining marks
before slug derivation; a heading whose only qualifying child text is
`Seção 1` is assigned the slug `secao-1`. -/
theorem secao_normalization :
    stripDiacritics "Seção 1" = "Secao 1" ∧
    baseSlug (stripDiacritics "Seção 1") = "secao-1" ∧
    headingSlugs (remarkAsciiSlugs (docOf [headingOf "Seção 1"])) = ["secao-1"] :=
  ⟨by decide, by decide, by decide⟩

/-- C5: every assigned slug is lower-cased with separator runs collapsed to
single hyphens and trimmed: it contains no two consecutive hyphens and
neither starts nor ends with a hyphen. -/
theorem slug_hyphen_shape (t : Node) :
    ∀ s ∈ headingSlugs (remarkAsciiSlugs t), isGoodSlug s = true := by
  intro s hs
  exact visitNode_slugProp (fun s => isGoodSlug s = true) emitted_good [] t s hs

/-- Witness for C5: a heading text full of separator runs and stray hyphens
produces a slug with single interior hyphens only. -/
theorem slug_hyphen_shape_witness :
    "ola-mundo" ∈ headingSlugs (remarkAsciiSlugs (docOf [headingOf "  Olá -- Mundo!  "])) ∧
    isGoodSlug "ola-mundo" = true :=
  ⟨by decide, slug_hyphen_shape (docOf [headingOf "  Olá -- Mundo!  "]) "ola-mundo" (by decide)⟩

/-- C6: the text used for slug derivation is exactly the in-order
concatenation of the values of the heading's direct `text` and `inlineCode`
children; a child of any other kind contributes nothing, including any text
nested inside it. -/
theorem extract_direct_children_only (pre post : List Node) (n : Node)
    (h1 : n.type ≠ "text") (h2 : n.type ≠ "inlineCode") :
    extractText (pre ++ n :: post) = extractText (pre ++ post) ∧
    (∀ (v : String) (cs : List Node) (d : Option NodeData) (rest : List Node),
      extractText (.mk "text" v cs d :: rest) = v ++ extractText rest ∧
      extractText (.mk "inlineCode" v cs d :: rest) = v ++ extractText rest) :=
  ⟨extractText_ignores pre post n h1 h2,
   fun v cs d rest => ⟨extractText_cons_text v cs d rest, extractText_cons_code v cs d rest⟩⟩

/-- Witness for C6: a link child with nested text contributes nothing to the
extracted text, while text and inline-code children contribute in order. -/
theorem extract_direct_children_only_witness :
    extractText ([textNode "Guia"] ++ Node.mk "link" "" [textNode "interno"] none :: [codeNode "cfg"])
      = extractText ([textNode "Guia"] ++ [codeNode "cfg"]) ∧
    extractText ([textNode "Guia"] ++ [codeNode "cfg"]) = "Guiacfg" :=
  ⟨(extract_direct_children_only [textNode "Guia"] [codeNode "cfg"]
      (Node.mk "link" "" [textNode "interno"] none) (by decide) (by decide)).1,
   by decide⟩

/-- C7: the only mutation performed by the plugin is writing the final slug
to the rendering-attribute `id` key and the node-level `id` field of each
heading (creating either container when absent); all other fields are
unchanged and no nodes are added, removed or reordered. -/
theorem mutation_frame (t : Node) : FrameOk t (remarkAsciiSlugs t) :=
  visitNode_frame [] t

/-- C8: the registry is constructed fresh inside each invocation, so no
disambiguation state leaks across invocations: in every document processed
by its own invocation, the first heading in pre-order is assigned its base
slug unsuffixed. -/
theorem registry_fresh_per_invocation (t : Node) (b : String)
    (h : firstHeadingBase t = some b) :
    (headingSlugs (remarkAsciiSlugs t)).head? = some b :=
  (visitNode_first [] t).2 b h

/-- Witness for C8: two independent documents each starting with an
`Introdução` heading both assign `introducao`, not `introducao` then
`introducao-1`. -/
theorem registry_fresh_per_invocation_witness :
    (headingSlugs (remarkAsciiSlugs
      (docOf [headingOf "Introdução", headingOf "Histórico"]))).head? = some "introducao" ∧
    (headingSlugs (remarkAsciiSlugs
      (docOf [headingOf "Introdução", headingOf "Introdução"]))).head? = some "introducao" :=
  ⟨registry_fresh_per_invocation (docOf [headingOf "Introdução", headingOf "Histórico"])
      "introducao" (by decide),
   registry_fresh_per_invocation (docOf [headingOf "Introdução", headingOf "Introdução"])
      "introducao" (by decide)⟩

/-- C9: every slug assigned by the plugin consists only of ASCII
characters, whatever the input heading text. -/
theorem slug_ascii_only (t : Node) :
    ∀ s ∈ headingSlugs (remarkAsciiSlugs t), isAsciiString s = true := by
  intro s hs
  exact visitNode_slugProp (fun s => isAsciiString s = true) emitted_ascii [] t s hs

/-- Witness for C9: a heading text containing non-ASCII letters and symbols
yields an ASCII-only slug. -/
theorem slug_ascii_only_witness :
    "visao-geral" ∈ headingSlugs (remarkAsciiSlugs (docOf [headingOf "Visão → Geral"])) ∧
    isAsciiString "visao-geral" = true :=
  ⟨by decide, slug_ascii_only (docOf [headingOf "Visão → Geral"]) "visao-geral" (by decide)⟩

/-- C10: disambiguation is keyed on the post-normalisation base slug: in a
two-heading document whose heading texts reduce to the same base, the first
heading is assigned the base and the second the base with suffix `-1`, even
when the original texts differ. -/
theorem disambiguation_keyed_on_base (t1 t2 : String) (h : finalBase t2 = finalBase t1) :
    headingSlugs (remarkAsciiSlugs (docOf [headingOf t1, headingOf t2]))
      = [finalBase t1, cand (finalBase t1) 1] := by
  have hs1a : (slugOnce [] (finalBase t1)).1 = finalBase t1 := rfl
  have hs1b : (slugOnce [] (finalBase t1)).2 = [(finalBase t1, 0)] := rfl
  have hne : occMem [(finalBase t1, 0)] (cand (finalBase t1) 1) = false := by
    have hx : ¬ (finalBase t1 = cand (finalBase t1) 1) :=
      fun hh => cand_ne_base _ _ hh.symm
    simp [occMem, occLookup, hx]
  have hpr : probe [(finalBase t1, 0)] (finalBase t1)
      (([(finalBase t1, 0)] : Occ).length + 1) 0 = some (cand (finalBase t1) 1, 1) := by
    rw [probe]
    simp [hne]
  have hlk : occLookup [(finalBase t1, 0)] (finalBase t1) = some 0 := by
    simp [occLookup]
  have hs2a : (slugOnce [(finalBase t1, 0)] (finalBase t1)).1 = cand (finalBase t1) 1 := by
    simp only [slugOnce, hlk, hpr]
  rw [remark_root_slugs, visitList_cons, headingSlugsList_cons,
    visitNode_headingOf_fst, heading_out_slugs, hs1a,
    visitNode_headingOf_snd, hs1b,
    visitList_cons, headingSlugsList_cons,
    visitNode_headingOf_fst, heading_out_slugs, h, hs2a,
    visitList_nil, headingSlugsList_nil]
  rfl

/-- Witness for C10: `Seção` and `Secao` are distinct texts with a common
base; the document assigns `secao` then `secao-1`. -/
theorem disambiguation_keyed_on_base_witness :
    finalBase "Secao" = finalBase "Seção" ∧ ("Seção" : String) ≠ "Secao" ∧
    headingSlugs (remarkAsciiSlugs (docOf [headingOf "Seção", headingOf "Secao"]))
      = ["secao", "secao-1"] := by
  refine ⟨by decide, by decide, ?_⟩
  rw [disambiguation_keyed_on_base "Seção" "Secao" (by decide)]
  decide
